import Mathlib

/-!
Verification of the random-forest trainer (`RFTrainer`) of the Shark
machine-learning library.

The hyperparameter surface (`setNTrees`, `setOOBratio`, `setMTry`,
`parameterVector`, `setParameterVector`) is embedded directly from
`include/shark/Algorithms/Trainers/RFTrainer.h`.  `double` values are carried
as `ℚ`, with the `long`-to-`double` conversion `(double)m_B` modelled as
IEEE-754 binary64 round-to-nearest-even (`longToDouble`); `long` is `ℤ`,
`std::size_t` is `ℕ`; a `SHARK_RUNTIME_CHECK`/`SHARK_ASSERT` failure is
modelled as `Except.error`.

The tree-growing pipeline itself (sorted-index restriction, split search,
recursive node expansion, the train orchestration) is declared in the header
but implemented in a translation unit that is not part of this source tree;
those parts are modelled from the specification, as flagged on each
definition.
-/

namespace Shark

/-- The three impurity criteria selectable through `m_impurityMeasure`
(`detail::cart::ImpurityMeasure`). -/
inductive ImpurityMeasure where
  | gini
  | misclassification
  | crossEntropy
deriving DecidableEq

/-- The configuration state held by an `RFTrainer` object: the public toggle
fields and the protected hyperparameter fields of `RFTrainer.h`. -/
structure RFTrainerState where
  m_computeFeatureImportances : Bool
  m_computeOOBerror : Bool
  m_bootstrapWithReplacement : Bool
  m_impurityMeasure : ImpurityMeasure
  m_inputDimension : Nat
  m_labelDimension : Nat
  m_labelCardinality : Nat
  m_try : Nat
  m_B : Int
  m_nodeSize : Nat
  m_OOBratio : ℚ
  m_regressionLearner : Bool
  m_computeCARTOOBerror : Bool
deriving DecidableEq

/-- `RFTrainer::setMTry`: stores the argument into `m_try` with no validation. -/
def setMTry (t : RFTrainerState) (mtry : Nat) : RFTrainerState :=
  { t with m_try := mtry }

/-- `RFTrainer::setNTrees`: `SHARK_RUNTIME_CHECK(nTrees >= 1, ...)` then
`m_B = nTrees`. -/
def setNTrees (t : RFTrainerState) (nTrees : Int) : Except String RFTrainerState :=
  if 1 ≤ nTrees then Except.ok { t with m_B := nTrees }
  else Except.error "nTrees must be a positive number"

/-- `RFTrainer::setNodeSize`: stores the argument into `m_nodeSize`. -/
def setNodeSize (t : RFTrainerState) (nodeSize : Nat) : RFTrainerState :=
  { t with m_nodeSize := nodeSize }

/-- `RFTrainer::setOOBratio`.  Faithful to the source: the runtime check tests
the already-stored field `m_OOBratio`, not the incoming `ratio` argument, and
the assignment stores the argument unconditionally when the check passes. -/
def setOOBratio (t : RFTrainerState) (ratio : ℚ) : Except String RFTrainerState :=
  if 0 < t.m_OOBratio ∧ t.m_OOBratio ≤ 1 then Except.ok { t with m_OOBratio := ratio }
  else Except.error "OOBratio must be in the interval (0,1]"

/-- Round `n / 2 ^ k` to the nearest integer, ties to even: the significand of
the IEEE-754 binary64 value nearest to `n` when `n` lies in the binade whose
representable values are the multiples of `2 ^ k`. -/
def roundSig (n k : Nat) : Nat :=
  if 2 * (n % 2 ^ k) < 2 ^ k then n / 2 ^ k
  else if 2 ^ k < 2 * (n % 2 ^ k) then n / 2 ^ k + 1
  else if (n / 2 ^ k) % 2 = 0 then n / 2 ^ k else n / 2 ^ k + 1

/-- The spacing exponent of the binary64 grid at magnitude `n`: the least `k`
with `n ≤ 2 ^ (53 + k)`, so binary64 represents exactly the multiples of
`2 ^ k` at that magnitude (53-bit significand).  The search range covers every
64-bit `long` magnitude (`n < 2 ^ 64 ≤ 2 ^ (53 + 11)`). -/
def binadeExp (n : Nat) : Nat :=
  (((List.range 12).filter (fun k => decide (n ≤ 2 ^ (53 + k)))).headD 0)

/-- The IEEE-754 binary64 value of `(double)z` for a 64-bit `long` `z`:
exact for `|z| ≤ 2 ^ 53`, rounded to the nearest representable (ties to even)
above that; no `long` magnitude overflows binary64. -/
def longToDouble (z : Int) : ℚ :=
  if z < 0 then -((roundSig z.natAbs (binadeExp z.natAbs) * 2 ^ binadeExp z.natAbs : Nat) : ℚ)
  else ((roundSig z.natAbs (binadeExp z.natAbs) * 2 ^ binadeExp z.natAbs : Nat) : ℚ)

/-- `RFTrainer::parameterVector`: a one-element vector holding `(double)m_B`,
with the `long`-to-`double` conversion rounding as binary64 does. -/
def parameterVector (t : RFTrainerState) : List ℚ :=
  [longToDouble t.m_B]

/-- `IParameterizable::numberOfParameters`, which defaults to the size of
`parameterVector()`. -/
def numberOfParameters (t : RFTrainerState) : Nat :=
  (parameterVector t).length

/-- `static_cast<long>` applied to a `double`: truncation toward zero. -/
def staticCastLong (q : ℚ) : Int :=
  if 0 ≤ q then ⌊q⌋ else ⌈q⌉

/-- `RFTrainer::setParameterVector`: `SHARK_ASSERT` on the size, then
`setNTrees(static_cast<long>(newParameters[0]))`. -/
def setParameterVector (t : RFTrainerState) (newParameters : List ℚ) :
    Except String RFTrainerState :=
  if newParameters.length = numberOfParameters t then
    setNTrees t (staticCastLong (newParameters.headD 0))
  else Except.error "SHARK_ASSERT failed: wrong number of parameters"

/-- A concrete trainer state with the documented defaults (OOB ratio 0.66)
used to exercise the setters on explicit inputs. -/
def defaultTrainer : RFTrainerState :=
  { m_computeFeatureImportances := false
    m_computeOOBerror := false
    m_bootstrapWithReplacement := false
    m_impurityMeasure := ImpurityMeasure.gini
    m_inputDimension := 0
    m_labelDimension := 1
    m_labelCardinality := 2
    m_try := 0
    m_B := 100
    m_nodeSize := 1
    m_OOBratio := 33 / 50
    m_regressionLearner := false
    m_computeCARTOOBerror := false }

/-- A trainer whose tree count `9007199254740993 = 2 ^ 53 + 1` exceeds the
range in which a 64-bit `long` converts to `double` exactly. -/
def bigTrainer : RFTrainerState :=
  { defaultTrainer with m_B := 9007199254740993 }

/-- A dataset view (`DataView`): indexed read-only access to feature values and
labels, plus row/feature counts.  `val r f` is the value of feature `f` on row
`r`; `lab r` is row `r`'s label (class id for classification, numeric for
regression). -/
structure DataView (L : Type) where
  nRows : Nat
  nFeatures : Nat
  val : Nat → Nat → ℚ
  lab : Nat → L

/-- A decision tree: an arena-free rendering of `TreeType` where a leaf holds
its prediction statistic and an internal node holds the chosen feature index,
the threshold, and its two subtrees. -/
inductive Tree where
  | leaf (pred : List ℚ)
  | node (f : Nat) (threshold : ℚ) (left right : Tree)
deriving DecidableEq

/-- Membership predicate of the left partition of a split on feature `f` at
threshold `θ`: rows whose feature value is at most the threshold go left. -/
def leftPred (val : Nat → Nat → ℚ) (f : Nat) (θ : ℚ) (r : Nat) : Bool :=
  decide (val r f ≤ θ)

/-- Left partition of a node's row list under a split. -/
def leftRows (val : Nat → Nat → ℚ) (rows : List Nat) (f : Nat) (θ : ℚ) : List Nat :=
  rows.filter (leftPred val f θ)

/-- Right partition of a node's row list under a split: rows whose feature
value exceeds the threshold. -/
def rightRows (val : Nat → Nat → ℚ) (rows : List Nat) (f : Nat) (θ : ℚ) : List Nat :=
  rows.filter (fun r => !(leftPred val f θ r))

/-- The multiset of values feature `f` takes on a row list. -/
def featVals (val : Nat → Nat → ℚ) (rows : List Nat) (f : Nat) : List ℚ :=
  rows.map (fun r => val r f)

/-- The distinct values of feature `f` on a row list, in ascending order. -/
def sortedDistinctVals (val : Nat → Nat → ℚ) (rows : List Nat) (f : Nat) : List ℚ :=
  ((featVals val rows f).insertionSort (· ≤ ·)).dedup

/-- Modelled from the spec (the split finder of `RFTrainer::findSplit` is
implemented outside this source tree): candidate thresholds for one feature are
the midpoints between consecutive distinct values; no split is proposed between
equal values. -/
def candidateThresholds (val : Nat → Nat → ℚ) (rows : List Nat) (f : Nat) : List ℚ :=
  ((sortedDistinctVals val rows f).zip (sortedDistinctVals val rows f).tail).map
    (fun ab => (ab.1 + ab.2) / 2)

/-- All candidate (feature, threshold) pairs over a drawn feature subset, in
feature-subset iteration order. -/
def splitCandidates (val : Nat → Nat → ℚ) (features : List Nat) (rows : List Nat) :
    List (Nat × ℚ) :=
  features.flatMap (fun f => (candidateThresholds val rows f).map (fun θ => (f, θ)))

/-- Impurity/error reduction of a candidate split, for a configured node
impurity function `imp` (Gini, misclassification, cross-entropy for
classification; sum-of-squared-error for regression). -/
def improvement (val : Nat → Nat → ℚ) (imp : List Nat → ℚ) (rows : List Nat)
    (f : Nat) (θ : ℚ) : ℚ :=
  imp rows -
    (((leftRows val rows f θ).length : ℚ) / (rows.length : ℚ) * imp (leftRows val rows f θ) +
      ((rightRows val rows f θ).length : ℚ) / (rows.length : ℚ) * imp (rightRows val rows f θ))

/-- Modelled from the spec: fold step of the split search.  A candidate is
accepted only with strictly positive improvement, and a stored best is replaced
only by a strictly better one, so among equal-scoring splits the first
encountered wins. -/
def betterSplit (val : Nat → Nat → ℚ) (imp : List Nat → ℚ) (rows : List Nat)
    (best : Option (Nat × ℚ)) (c : Nat × ℚ) : Option (Nat × ℚ) :=
  match best with
  | none => if 0 < improvement val imp rows c.1 c.2 then some c else none
  | some b => if improvement val imp rows b.1 b.2 < improvement val imp rows c.1 c.2
              then some c else some b

/-- Modelled from the spec (`RFTrainer::findSplit` is declared in the header
but implemented outside this source tree): return the best (feature, threshold)
candidate over the drawn feature subset under the configured impurity, or
`none` when no candidate strictly improves. -/
def findSplit (val : Nat → Nat → ℚ) (imp : List Nat → ℚ) (features : List Nat)
    (rows : List Nat) : Option (Nat × ℚ) :=
  (splitCandidates val features rows).foldl (betterSplit val imp rows) none

/-- Whether all labels of a row list are identical (a pure node). -/
def isPure {L : Type} [BEq L] (lab : Nat → L) (rows : List Nat) : Bool :=
  match rows with
  | [] => true
  | r :: rs => rs.all (fun s => lab s == lab r)

theorem mem_featVals {val : Nat → Nat → ℚ} {rows : List Nat} {f : Nat} {a : ℚ} :
    a ∈ featVals val rows f ↔ ∃ r ∈ rows, val r f = a := by
  simp [featVals]

theorem mem_of_mem_sortedDistinctVals {val : Nat → Nat → ℚ} {rows : List Nat} {f : Nat}
    {a : ℚ} (h : a ∈ sortedDistinctVals val rows f) : a ∈ featVals val rows f := by
  rw [sortedDistinctVals] at h
  exact (List.mem_insertionSort _).mp (List.mem_dedup.mp h)

theorem sortedDistinctVals_sorted_lt (val : Nat → Nat → ℚ) (rows : List Nat) (f : Nat) :
    (sortedDistinctVals val rows f).Sorted (· < ·) := by
  have hs : ((featVals val rows f).insertionSort (· ≤ ·)).Sorted (· ≤ ·) :=
    List.sorted_insertionSort _ _
  have hle : (sortedDistinctVals val rows f).Sorted (· ≤ ·) :=
    hs.sublist (List.dedup_sublist _)
  exact hle.lt_of_le (List.nodup_dedup _)

theorem rel_of_mem_zip_tail {α : Type} {R : α → α → Prop} :
    ∀ {l : List α}, l.Pairwise R → ∀ {a b : α}, (a, b) ∈ l.zip l.tail → R a b := by
  intro l
  induction l with
  | nil => intro _ a b hm; simp at hm
  | cons x l ih =>
    intro h a b hm
    obtain ⟨hx, hl⟩ := List.pairwise_cons.mp h
    cases l with
    | nil => simp at hm
    | cons y l' =>
      simp only [List.tail_cons, List.zip_cons_cons, List.mem_cons] at hm
      rcases hm with h1 | h2
      · injection h1 with h1a h1b
        subst h1a; subst h1b
        exact hx _ (List.mem_cons_self _ _)
      · exact ih hl h2

theorem candidateThresholds_spec {val : Nat → Nat → ℚ} {rows : List Nat} {f : Nat}
    {θ : ℚ} (h : θ ∈ candidateThresholds val rows f) :
    ∃ a b, a ∈ featVals val rows f ∧ b ∈ featVals val rows f ∧ a < θ ∧ θ < b := by
  rw [candidateThresholds] at h
  rcases List.mem_map.mp h with ⟨⟨a, b⟩, hab, hθ⟩
  have hR : a < b := rel_of_mem_zip_tail (sortedDistinctVals_sorted_lt val rows f) hab
  have hma : a ∈ sortedDistinctVals val rows f := (List.of_mem_zip hab).1
  have hmb : b ∈ sortedDistinctVals val rows f :=
    List.mem_of_mem_tail (List.of_mem_zip hab).2
  refine ⟨a, b, mem_of_mem_sortedDistinctVals hma, mem_of_mem_sortedDistinctVals hmb, ?_, ?_⟩
  · simp only at hθ
    rw [← hθ]; linarith
  · simp only at hθ
    rw [← hθ]; linarith

theorem candidate_partition_shrinks {val : Nat → Nat → ℚ} {rows : List Nat} {f : Nat}
    {θ : ℚ} (h : θ ∈ candidateThresholds val rows f) :
    leftRows val rows f θ ≠ [] ∧ rightRows val rows f θ ≠ [] ∧
    (leftRows val rows f θ).length < rows.length ∧
    (rightRows val rows f θ).length < rows.length := by
  obtain ⟨a, b, ha, hb, haθ, hθb⟩ := candidateThresholds_spec h
  obtain ⟨ra, hra, hva⟩ := mem_featVals.mp ha
  obtain ⟨rb, hrb, hvb⟩ := mem_featVals.mp hb
  have hla : ra ∈ leftRows val rows f θ := by
    refine List.mem_filter.mpr ⟨hra, ?_⟩
    simp only [leftPred, decide_eq_true_eq]
    rw [hva]; exact le_of_lt haθ
  have hrb' : rb ∈ rightRows val rows f θ := by
    refine List.mem_filter.mpr ⟨hrb, ?_⟩
    simp only [leftPred, Bool.not_eq_true', decide_eq_false_iff_not, not_le]
    rw [hvb]; exact hθb
  have hperm : List.Perm (leftRows val rows f θ ++ rightRows val rows f θ) rows :=
    List.filter_append_perm _ rows
  have hlen : (leftRows val rows f θ).length + (rightRows val rows f θ).length =
      rows.length := by
    have := hperm.length_eq
    simpa [List.length_append] using this
  have h1 : 0 < (leftRows val rows f θ).length := List.length_pos.mpr (List.ne_nil_of_mem hla)
  have h2 : 0 < (rightRows val rows f θ).length := List.length_pos.mpr (List.ne_nil_of_mem hrb')
  exact ⟨List.ne_nil_of_mem hla, List.ne_nil_of_mem hrb', by omega, by omega⟩

theorem betterSplit_foldl_mem {val : Nat → Nat → ℚ} {imp : List Nat → ℚ} {rows : List Nat}
    {S : Nat × ℚ → Prop} :
    ∀ cs : List (Nat × ℚ), (∀ c ∈ cs, S c) →
      ∀ acc : Option (Nat × ℚ),
        (∀ b, acc = some b → S b ∧ 0 < improvement val imp rows b.1 b.2) →
        ∀ c, cs.foldl (betterSplit val imp rows) acc = some c →
          S c ∧ 0 < improvement val imp rows c.1 c.2 := by
  intro cs
  induction cs with
  | nil =>
    intro _ acc hacc c hc
    simp only [List.foldl_nil] at hc
    exact hacc c hc
  | cons d cs ih =>
    intro hcs acc hacc c hc
    simp only [List.foldl_cons] at hc
    refine ih (fun c hc => hcs c (List.mem_cons_of_mem _ hc)) _ ?_ c hc
    intro b hb
    match hA : acc with
    | none =>
      simp only [betterSplit] at hb
      split at hb
      · injection hb with hb2
        subst hb2
        exact ⟨hcs d (List.mem_cons_self _ _), by assumption⟩
      · exact absurd hb (by simp)
    | some a =>
      obtain ⟨Sa, hia⟩ := hacc a rfl
      simp only [betterSplit] at hb
      split at hb
      · injection hb with hb2
        subst hb2
        exact ⟨hcs d (List.mem_cons_self _ _), lt_trans hia (by assumption)⟩
      · injection hb with hb2
        subst hb2
        exact ⟨Sa, hia⟩

theorem findSplit_result {val : Nat → Nat → ℚ} {imp : List Nat → ℚ} {features rows : List Nat}
    {f : Nat} {θ : ℚ} (h : findSplit val imp features rows = some (f, θ)) :
    (f, θ) ∈ splitCandidates val features rows ∧ 0 < improvement val imp rows f θ :=
  betterSplit_foldl_mem (S := fun c => c ∈ splitCandidates val features rows)
    (splitCandidates val features rows) (fun _ hc => hc) none (by simp) (f, θ) h

theorem splitCandidates_mem {val : Nat → Nat → ℚ} {features rows : List Nat}
    {f : Nat} {θ : ℚ} (h : (f, θ) ∈ splitCandidates val features rows) :
    f ∈ features ∧ θ ∈ candidateThresholds val rows f := by
  rw [splitCandidates] at h
  rcases List.mem_flatMap.mp h with ⟨f', hf', hmem⟩
  rcases List.mem_map.mp hmem with ⟨θ', hθ', heq⟩
  obtain ⟨h1, h2⟩ := Prod.mk.injEq .. ▸ heq
  subst h1; subst h2
  exact ⟨hf', hθ'⟩

theorem shrink_of_findSplit {val : Nat → Nat → ℚ} {imp : List Nat → ℚ}
    {features rows : List Nat} {f : Nat} {θ : ℚ}
    (h : findSplit val imp features rows = some (f, θ)) :
    leftRows val rows f θ ≠ [] ∧ rightRows val rows f θ ≠ [] ∧
    (leftRows val rows f θ).length < rows.length ∧
    (rightRows val rows f θ).length < rows.length :=
  candidate_partition_shrinks (splitCandidates_mem (findSplit_result h).1).2

/-- A per-tree build configuration: the dataset access functions together with
the configured impurity criterion `imp`, the leaf statistic `pred` (class
distribution for classification, mean label for regression), the minimum node
size, `mtry` and the feature count. -/
structure BuildCfg (L : Type) where
  val : Nat → Nat → ℚ
  lab : Nat → L
  imp : List Nat → ℚ
  pred : List Nat → List ℚ
  nodeSize : Nat
  mtry : Nat
  nFeatures : Nat

/-- Modelled from the spec (`RFTrainer::generateRandomTableIndices` is
implemented outside this source tree): the subset of `mtry` features examined
at one node, drawn deterministically from the node's stream counter `g`. -/
def drawFeatures (nFeatures mtry g : Nat) : List Nat :=
  ((List.range mtry).map (fun j => (g + j) % nFeatures)).dedup

/-- Modelled from the spec (`RFTrainer::buildTree` is declared in the header
but implemented outside this source tree): recursively grow one tree.  A node
becomes a leaf when its row count is below the minimum node size, or it is
pure, or the split finder returns no improving split; otherwise the accepted
split partitions the rows and the builder recurses into both children, each
child deriving its stream counter from the parent's.  Recursion is on the
strictly decreasing row count of the partitions. -/
def buildTree {L : Type} [BEq L] (C : BuildCfg L) (g : Nat) (rows : List Nat) : Tree :=
  if rows.length < C.nodeSize ∨ isPure C.lab rows = true then Tree.leaf (C.pred rows)
  else
    match h : findSplit C.val C.imp (drawFeatures C.nFeatures C.mtry g) rows with
    | none => Tree.leaf (C.pred rows)
    | some (f, θ) =>
      Tree.node f θ
        (buildTree C (2 * g + 1) (leftRows C.val rows f θ))
        (buildTree C (2 * g + 2) (rightRows C.val rows f θ))
termination_by rows.length
decreasing_by
  · exact (shrink_of_findSplit h).2.2.1
  · exact (shrink_of_findSplit h).2.2.2

/-- The leaf invariant of the tree builder, threaded down the partitions: at
every leaf, the leaf's row set is below the minimum node size, or pure, or
had no improving split, and the leaf's stored prediction is the configured
statistic of exactly that row set; at every internal node, the invariant holds
of both children on the node's own left and right partitions. -/
def LeafInv {L : Type} [BEq L] (C : BuildCfg L) : Nat → List Nat → Tree → Prop
  | g, rows, Tree.leaf pred =>
      (rows.length < C.nodeSize ∨ isPure C.lab rows = true ∨
        findSplit C.val C.imp (drawFeatures C.nFeatures C.mtry g) rows = none) ∧
      pred = C.pred rows
  | g, rows, Tree.node f θ l r =>
      LeafInv C (2 * g + 1) (leftRows C.val rows f θ) l ∧
      LeafInv C (2 * g + 2) (rightRows C.val rows f θ) r

/-- Per-class row counts of a row list, for label cardinality `k`. -/
def classCounts (k : Nat) (lab : Nat → Nat) (rows : List Nat) : List Nat :=
  (List.range k).map (fun c => rows.countP (fun r => lab r == c))

/-- The class distribution of a row list: per-class relative frequencies,
the leaf statistic of a classification tree. -/
def classDist (k : Nat) (lab : Nat → Nat) (rows : List Nat) : List ℚ :=
  (classCounts k lab rows).map (fun cnt => (cnt : ℚ) / (rows.length : ℚ))

/-- Gini impurity of a row list, the classification node impurity. -/
def gini (k : Nat) (lab : Nat → Nat) (rows : List Nat) : ℚ :=
  1 - ((classDist k lab rows).map (fun p => p * p)).sum

/-- Mean label of a row list, the leaf statistic of a regression tree. -/
def labelMean (lab : Nat → ℚ) (rows : List Nat) : ℚ :=
  (rows.map lab).sum / (rows.length : ℚ)

/-- Total sum of squared errors of a row list, the regression node impurity. -/
def sse (lab : Nat → ℚ) (rows : List Nat) : ℚ :=
  (rows.map (fun r => (lab r - labelMean lab rows) ^ 2)).sum

/-- The build configuration of one classification tree: Gini-style impurity
over `k` classes and class-distribution leaves. -/
def classificationCfg (D : DataView Nat) (k nodeSize mtry : Nat) : BuildCfg Nat :=
  { val := D.val
    lab := D.lab
    imp := gini k D.lab
    pred := classDist k D.lab
    nodeSize := nodeSize
    mtry := mtry
    nFeatures := D.nFeatures }

/-- The build configuration of one regression tree: sum-of-squared-error
impurity and mean-label leaves. -/
def regressionCfg (D : DataView ℚ) (nodeSize mtry : Nat) : BuildCfg ℚ :=
  { val := D.val
    lab := D.lab
    imp := sse D.lab
    pred := fun rows => [labelMean D.lab rows]
    nodeSize := nodeSize
    mtry := mtry
    nFeatures := D.nFeatures }

/-- Modelled from the spec: the per-tree stream seed, derived deterministically
from the master seed and the tree's ordinal. -/
def deriveSeed (masterSeed i : Nat) : Nat :=
  masterSeed * 2654435761 + i * 40503 + 1

/-- Modelled from the spec: the bootstrap row sample of one tree, drawn
deterministically from the tree's seed (with replacement, size equal to the
full dataset). -/
def sampleRows (nRows s : Nat) : List Nat :=
  (List.range nRows).map (fun j => (s + j * 2654435761) % nRows)

/-- Modelled from the spec: one complete tree-construction run — derive the
tree's seed, draw its bootstrap sample, grow the tree. -/
def buildOneTree {L : Type} [BEq L] (C : BuildCfg L) (nRows masterSeed i : Nat) : Tree :=
  buildTree C (deriveSeed masterSeed i) (sampleRows nRows (deriveSeed masterSeed i))

/-- Modelled from the spec (`RFTrainer::train` is declared in the header but
implemented outside this source tree): the forest is the ordered sequence of
`B` independently built trees. -/
def train {L : Type} [BEq L] (C : BuildCfg L) (nRows B masterSeed : Nat) : List Tree :=
  (List.range B).map (buildOneTree C nRows masterSeed)

/-- Modelled from the spec's concurrency model: trees are built in an arbitrary
schedule `order` (one entry per unit of work); each finished tree is filed
under its ordinal, and the forest is assembled by ordinal.  The schedule
stands for the degree of parallelism and the interleaving of workers. -/
def trainScheduled {L : Type} [BEq L] (C : BuildCfg L) (nRows B masterSeed : Nat)
    (order : List Nat) : List Tree :=
  let built := order.map (fun j => (j, buildOneTree C nRows masterSeed j))
  (List.range B).map (fun i => (built.lookup i).getD (Tree.leaf []))

/-- Modelled from the spec: the `train()` entry validation of the
hyperparameters — `mtry` must lie in `[1, featureCount]` and the tree count
must be positive; on violation a configuration error is reported and no tree
is grown. -/
def validateConfig (t : RFTrainerState) (featureCount : Nat) : Except String Unit :=
  if 1 ≤ t.m_try ∧ t.m_try ≤ featureCount ∧ 1 ≤ t.m_B then Except.ok ()
  else Except.error "invalid hyperparameters"

/-- Modelled from the spec: the classification `train()` overload — validate
the configuration against the dataset's feature count, then build the forest;
on a validation failure no forest is produced. -/
def trainClassification (t : RFTrainerState) (D : DataView Nat) (masterSeed : Nat) :
    Except String (List Tree) :=
  match validateConfig t D.nFeatures with
  | Except.error e => Except.error e
  | Except.ok _ =>
      Except.ok (train (classificationCfg D t.m_labelCardinality t.m_nodeSize t.m_try)
        D.nRows t.m_B.toNat masterSeed)

/-- Modelled from the spec (`detail::cart::SortedIndex` is implemented outside
this source tree): the restriction operation on one per-feature sorted row
list — a single stable pass partitions the list by the membership predicate
into the left and right child lists, preserving relative order. -/
def restrictIndex {α : Type} (l : List α) (p : α → Bool) : List α × List α :=
  (l.filter p, l.filter (fun x => !p x))

/-- A stable merge of two lists ordered by `key`: heads are compared by key
and ties are resolved toward the first list. -/
def mergeBy {α β : Type} [LinearOrder β] (key : α → β) : List α → List α → List α
  | [], ys => ys
  | x :: xs, [] => x :: xs
  | x :: xs, y :: ys =>
      if key x ≤ key y then x :: mergeBy key xs (y :: ys)
      else y :: mergeBy key (x :: xs) ys
termination_by xs ys => xs.length + ys.length

theorem buildTree_leafInv {L : Type} [BEq L] (C : BuildCfg L) :
    ∀ (n : Nat) (rows : List Nat), rows.length < n → ∀ g : Nat,
      LeafInv C g rows (buildTree C g rows) := by
  intro n
  induction n with
  | zero => intro rows h; exact absurd h (Nat.not_lt_zero _)
  | succ n ih =>
    intro rows hlen g
    rw [buildTree]
    split
    · next hstop =>
      rcases hstop with h1 | h2
      · exact ⟨Or.inl h1, rfl⟩
      · exact ⟨Or.inr (Or.inl h2), rfl⟩
    · next hstop =>
      split
      · next hnone => exact ⟨Or.inr (Or.inr hnone), rfl⟩
      · next f θ hsome =>
        have hs := shrink_of_findSplit hsome
        exact ⟨ih _ (by omega) _, ih _ (by omega) _⟩

theorem lookup_map_pair {β : Type} (f : Nat → β) :
    ∀ (l : List Nat) (i : Nat), i ∈ l →
      (l.map (fun j => (j, f j))).lookup i = some (f i) := by
  intro l
  induction l with
  | nil => intro i hi; exact absurd hi (List.not_mem_nil i)
  | cons j l ih =>
    intro i hi
    by_cases hij : i = j
    · subst hij; simp [List.lookup]
    · have hb : (i == j) = false := by simpa using hij
      rcases List.mem_cons.mp hi with h | h
      · exact absurd h hij
      · simp only [List.map_cons, List.lookup, hb]
        exact ih i h

theorem trainScheduled_eq_train {L : Type} [BEq L] (C : BuildCfg L)
    (nRows B masterSeed : Nat) {order : List Nat}
    (h : order.Perm (List.range B)) :
    trainScheduled C nRows B masterSeed order = train C nRows B masterSeed := by
  rw [trainScheduled, train]
  refine List.map_congr_left ?_
  intro i hi
  have hio : i ∈ order := h.mem_iff.mpr hi
  rw [lookup_map_pair (buildOneTree C nRows masterSeed) order i hio]
  rfl

theorem mergeBy_nil_right {α β : Type} [LinearOrder β] (key : α → β) (xs : List α) :
    mergeBy key xs [] = xs := by
  cases xs <;> simp [mergeBy]

theorem mergeBy_cons_left_of_lt {α β : Type} [LinearOrder β] (key : α → β) {x : α}
    {B : List α} (h : ∀ b ∈ B, key x < key b) (A : List α) :
    mergeBy key (x :: A) B = x :: mergeBy key A B := by
  cases B with
  | nil => rw [mergeBy_nil_right, mergeBy_nil_right]
  | cons y ys =>
    have hxy : key x ≤ key y := le_of_lt (h y (List.mem_cons_self _ _))
    simp [mergeBy, hxy]

theorem mergeBy_cons_right_of_lt {α β : Type} [LinearOrder β] (key : α → β) {x : α}
    {A : List α} (h : ∀ a ∈ A, key x < key a) (B : List α) :
    mergeBy key A (x :: B) = x :: mergeBy key A B := by
  cases A with
  | nil => simp [mergeBy]
  | cons a as =>
    have hax : ¬ key a ≤ key x := not_le.mpr (h a (List.mem_cons_self _ _))
    simp [mergeBy, hax]

theorem restrict_mergeBy {α β : Type} [LinearOrder β] (key : α → β) (p : α → Bool) :
    ∀ l : List α, l.Pairwise (fun a b => key a < key b) →
      mergeBy key (l.filter p) (l.filter (fun x => !p x)) = l := by
  intro l
  induction l with
  | nil => intro _; simp [mergeBy]
  | cons x l ih =>
    intro h
    obtain ⟨hx, hl⟩ := List.pairwise_cons.mp h
    by_cases hp : p x
    · simp only [List.filter_cons, hp, if_pos, Bool.not_true, Bool.false_eq_true, if_neg,
        not_false_eq_true]
      rw [mergeBy_cons_left_of_lt]
      · rw [ih hl]
      · intro b hb
        exact hx b (List.mem_filter.mp hb).1
    · have hp' : p x = false := Bool.not_eq_true _ ▸ hp
      simp only [List.filter_cons, hp', Bool.false_eq_true, if_neg, not_false_eq_true,
        Bool.not_false, if_pos]
      rw [mergeBy_cons_right_of_lt]
      · rw [ih hl]
      · intro a ha
        exact hx a (List.mem_filter.mp ha).1

theorem binadeExp_zero {n : Nat} (h : n ≤ 2 ^ 53) : binadeExp n = 0 := by
  rw [binadeExp, show List.range 12 = 0 :: [1, 2, 3, 4, 5, 6, 7, 8, 9, 10, 11] from rfl,
    List.filter_cons_of_pos (by simpa using h)]
  rfl

theorem roundSig_zero (n : Nat) : roundSig n 0 = n := by
  rw [roundSig]
  norm_num [Nat.mod_one, Nat.div_one]

theorem longToDouble_exact {z : Int} (h0 : 0 ≤ z) (h : z ≤ 2 ^ 53) :
    longToDouble z = (z : ℚ) := by
  have hpi : (2 : Int) ^ 53 = 9007199254740992 := by norm_num
  have hpn : (2 : Nat) ^ 53 = 9007199254740992 := by norm_num
  have hn : z.natAbs ≤ 2 ^ 53 := by
    rw [hpn]; rw [hpi] at h; omega
  rw [longToDouble, if_neg (by omega : ¬ z < 0), binadeExp_zero hn, roundSig_zero]
  simp only [pow_zero, mul_one]
  have h1 : ((z.natAbs : Int) : ℚ) = (z : ℚ) := by rw [Int.natAbs_of_nonneg h0]
  simpa only [Int.cast_natCast] using h1

theorem longToDouble_big :
    longToDouble 9007199254740993 = (9007199254740992 : ℚ) := by
  have h1 : ((9007199254740993 : Int)).natAbs = 9007199254740993 := rfl
  have h2 : binadeExp 9007199254740993 = 1 := by decide
  have h3 : roundSig 9007199254740993 1 = 4503599627370496 := by decide
  rw [longToDouble, if_neg (by norm_num), h1, h2, h3]
  norm_num

/-- Feature values of a small concrete two-row dataset: feature 0 of row `r`
has value `r`. -/
def exVal : Nat → Nat → ℚ := fun r _ => r

/-- Labels of the small concrete dataset: row `r` has class `r`. -/
def exLab : Nat → Nat := fun r => r

/-- A concrete classification dataset with 2 rows, 1 feature and 2 classes. -/
def exDataC : DataView Nat :=
  { nRows := 2, nFeatures := 1, val := exVal, lab := exLab }

/-- The concrete build configuration on `exDataC`: 2 classes, node size 1,
`mtry` 1. -/
def exCfg : BuildCfg Nat := classificationCfg exDataC 2 1 1

/-- C1: the claim says a ratio outside (0,1] is rejected and a ratio inside is
stored.  The source's `setOOBratio` instead validates the previously stored
field: with the valid default 0.66 stored, the out-of-range argument 5 is
accepted and stored, and afterwards the in-range argument 1/2 is rejected. -/
theorem setOOBratio_checks_stored_field :
    setOOBratio defaultTrainer 5 = Except.ok { defaultTrainer with m_OOBratio := 5 } ∧
    ¬ ((0 : ℚ) < 5 ∧ (5 : ℚ) ≤ 1) ∧
    setOOBratio { defaultTrainer with m_OOBratio := 5 } (1 / 2) =
      Except.error "OOBratio must be in the interval (0,1]" ∧
    ((0 : ℚ) < 1 / 2 ∧ (1 / 2 : ℚ) ≤ 1) := by
  refine ⟨?_, by norm_num, ?_, by norm_num⟩
  · rw [setOOBratio, if_pos]
    exact ⟨by norm_num [defaultTrainer], by norm_num [defaultTrainer]⟩
  · rw [setOOBratio, if_neg]
    intro hcon
    have h5 := hcon.2
    norm_num at h5

/-- C2: every split applied during tree growth partitions the parent's row
list so that every left row has the split feature's value at most the
threshold, every right row has value above the threshold, no row is in both
partitions, and the two partitions together are a permutation of the parent's
rows (none lost, none duplicated), for any dataset with at least 2 rows and at
least 1 feature. -/
theorem split_partition_invariant (D : DataView Nat) (rows : List Nat) (f : Nat) (θ : ℚ)
    (h2 : 2 ≤ rows.length) (h1 : 1 ≤ D.nFeatures) :
    (∀ r ∈ leftRows D.val rows f θ, D.val r f ≤ θ) ∧
    (∀ r ∈ rightRows D.val rows f θ, θ < D.val r f) ∧
    (∀ r, r ∈ leftRows D.val rows f θ → r ∉ rightRows D.val rows f θ) ∧
    List.Perm (leftRows D.val rows f θ ++ rightRows D.val rows f θ) rows := by
  refine ⟨?_, ?_, ?_, List.filter_append_perm _ rows⟩
  · intro r hr
    have hm := (List.mem_filter.mp hr).2
    simpa [leftPred] using hm
  · intro r hr
    have hm := (List.mem_filter.mp hr).2
    simp only [leftPred, Bool.not_eq_true', decide_eq_false_iff_not, not_le] at hm
    exact hm
  · intro r hl hr
    have hml := (List.mem_filter.mp hl).2
    have hmr := (List.mem_filter.mp hr).2
    simp only [leftPred, decide_eq_true_eq] at hml
    simp only [leftPred, Bool.not_eq_true', decide_eq_false_iff_not, not_le] at hmr
    exact absurd hml (not_le.mpr hmr)

/-- Witness for C2 on the concrete dataset, split at feature 0, threshold 1/2. -/
theorem split_partition_invariant_witness :
    (∀ r ∈ leftRows exDataC.val [0, 1] 0 (1 / 2), exDataC.val r 0 ≤ 1 / 2) ∧
    (∀ r ∈ rightRows exDataC.val [0, 1] 0 (1 / 2), 1 / 2 < exDataC.val r 0) ∧
    (∀ r, r ∈ leftRows exDataC.val [0, 1] 0 (1 / 2) →
      r ∉ rightRows exDataC.val [0, 1] 0 (1 / 2)) ∧
    List.Perm (leftRows exDataC.val [0, 1] 0 (1 / 2) ++
      rightRows exDataC.val [0, 1] 0 (1 / 2)) [0, 1] :=
  split_partition_invariant exDataC [0, 1] 0 (1 / 2) (by decide) (by decide)

/-- C3: with the per-tree streams derived deterministically from the master
seed and the tree ordinal, two training runs with identical dataset access,
configuration and master seed produce identical forests under any two work
schedules (any degree of parallelism), and both agree with the sequential
run. -/
theorem train_deterministic_under_scheduling {L : Type} [BEq L] (C : BuildCfg L)
    (nRows B masterSeed : Nat) (order₁ order₂ : List Nat)
    (h₁ : order₁.Perm (List.range B)) (h₂ : order₂.Perm (List.range B)) :
    trainScheduled C nRows B masterSeed order₁ = trainScheduled C nRows B masterSeed order₂ ∧
    trainScheduled C nRows B masterSeed order₁ = train C nRows B masterSeed := by
  have e₁ := trainScheduled_eq_train C nRows B masterSeed h₁
  have e₂ := trainScheduled_eq_train C nRows B masterSeed h₂
  exact ⟨e₁.trans e₂.symm, e₁⟩

/-- Witness for C3: two trees built under the two opposite schedules. -/
theorem train_deterministic_under_scheduling_witness :
    trainScheduled exCfg 2 2 7 [1, 0] = trainScheduled exCfg 2 2 7 [0, 1] ∧
    trainScheduled exCfg 2 2 7 [1, 0] = train exCfg 2 2 7 :=
  train_deterministic_under_scheduling exCfg 2 2 7 [1, 0] [0, 1] (by decide) (by decide)

/-- C4: whenever the split finder accepts a split at a node, both resulting
partitions are non-empty and strictly smaller than the node's row list — the
measure that makes the recursive `buildTree` terminate (its recursion is
well-founded on the row count). -/
theorem accepted_split_shrinks {L : Type} [BEq L] (C : BuildCfg L) (g : Nat)
    (rows : List Nat) (f : Nat) (θ : ℚ)
    (h : findSplit C.val C.imp (drawFeatures C.nFeatures C.mtry g) rows = some (f, θ)) :
    leftRows C.val rows f θ ≠ [] ∧ rightRows C.val rows f θ ≠ [] ∧
    (leftRows C.val rows f θ).length < rows.length ∧
    (rightRows C.val rows f θ).length < rows.length :=
  shrink_of_findSplit h

/-- Witness for C4: on the concrete dataset the finder accepts the split at
feature 0, threshold 1/2, and both partitions shrink. -/
theorem accepted_split_shrinks_witness :
    leftRows exCfg.val [0, 1] 0 (1 / 2) ≠ [] ∧
    rightRows exCfg.val [0, 1] 0 (1 / 2) ≠ [] ∧
    (leftRows exCfg.val [0, 1] 0 (1 / 2)).length < ([0, 1] : List Nat).length ∧
    (rightRows exCfg.val [0, 1] 0 (1 / 2)).length < ([0, 1] : List Nat).length :=
  accepted_split_shrinks exCfg 0 [0, 1] 0 (1 / 2) (by
    norm_num [findSplit, splitCandidates, candidateThresholds, sortedDistinctVals, featVals,
      exCfg, classificationCfg, exDataC, exVal, exLab, drawFeatures, List.insertionSort,
      List.orderedInsert, betterSplit, improvement, leftRows, rightRows, leftPred, gini,
      classDist, classCounts, List.dedup, List.pwFilter, List.range_succ, List.countP_cons,
      List.countP_nil])

/-- C5: every leaf produced by the tree builder satisfies the leaf invariant on
the row set that reached it — below the minimum node size, or pure, or no
improving split under the configured criterion — and its stored prediction is
the configured leaf statistic of those rows, which is the class distribution
in the classification configuration and the mean label in the regression
configuration. -/
theorem buildTree_leaf_conditions {L : Type} [BEq L] (C : BuildCfg L) (g : Nat)
    (rows : List Nat) :
    LeafInv C g rows (buildTree C g rows) ∧
    (∀ (D : DataView Nat) (k ns mt : Nat),
      (classificationCfg D k ns mt).pred = classDist k D.lab) ∧
    (∀ (D : DataView ℚ) (ns mt : Nat),
      (regressionCfg D ns mt).pred = fun rs => [labelMean D.lab rs]) :=
  ⟨buildTree_leafInv C (rows.length + 1) rows (Nat.lt_succ_self _) g,
   fun _ _ _ _ => rfl, fun _ _ _ => rfl⟩

/-- C6: restricting a strictly key-sorted per-feature row list by a membership
predicate yields the two filtered lists, and stably merging them by the key
reproduces the original list; both outputs are sublists, so each preserves the
input's relative order. -/
theorem restrictIndex_merge_roundtrip {α β : Type} [LinearOrder β] (key : α → β)
    (l : List α) (p : α → Bool) (h : l.Pairwise (fun a b => key a < key b)) :
    mergeBy key (restrictIndex l p).1 (restrictIndex l p).2 = l ∧
    (restrictIndex l p).1.Sublist l ∧ (restrictIndex l p).2.Sublist l :=
  ⟨restrict_mergeBy key p l h, List.filter_sublist l, List.filter_sublist l⟩

/-- Witness for C6 on a concrete sorted list and the even-membership
predicate. -/
theorem restrictIndex_merge_roundtrip_witness :
    mergeBy (fun n : Nat => n) (restrictIndex [0, 1, 2, 3] (fun n => n % 2 == 0)).1
      (restrictIndex [0, 1, 2, 3] (fun n => n % 2 == 0)).2 = [0, 1, 2, 3] ∧
    (restrictIndex [0, 1, 2, 3] (fun n => n % 2 == 0)).1.Sublist [0, 1, 2, 3] ∧
    (restrictIndex [0, 1, 2, 3] (fun n => n % 2 == 0)).2.Sublist [0, 1, 2, 3] :=
  restrictIndex_merge_roundtrip (fun n => n) [0, 1, 2, 3] (fun n => n % 2 == 0) (by decide)

/-- C7: `setNTrees` rejects every tree count below 1 with the configuration
error (so the stored count is untouched), and for every count at least 1 it
succeeds, storing exactly the argument and changing nothing else. -/
theorem setNTrees_spec (t : RFTrainerState) (n : Int) :
    (n < 1 → setNTrees t n = Except.error "nTrees must be a positive number") ∧
    (1 ≤ n → setNTrees t n = Except.ok { t with m_B := n }) := by
  constructor
  · intro h; rw [setNTrees, if_neg (by omega)]
  · intro h; rw [setNTrees, if_pos h]

/-- Witness for C7 at the counts -2 and 5. -/
theorem setNTrees_spec_witness :
    setNTrees defaultTrainer (-2) = Except.error "nTrees must be a positive number" ∧
    setNTrees defaultTrainer 5 = Except.ok { defaultTrainer with m_B := 5 } :=
  ⟨(setNTrees_spec defaultTrainer (-2)).1 (by decide),
   (setNTrees_spec defaultTrainer 5).2 (by decide)⟩

/-- C8: whenever `mtry` exceeds the dataset's feature count or is below 1,
training fails at `train()` entry with a configuration error and no forest is
produced. -/
theorem train_rejects_bad_mtry (t : RFTrainerState) (D : DataView Nat) (masterSeed : Nat)
    (h : D.nFeatures < t.m_try ∨ t.m_try < 1) :
    trainClassification t D masterSeed = Except.error "invalid hyperparameters" := by
  have hv : validateConfig t D.nFeatures = Except.error "invalid hyperparameters" := by
    rw [validateConfig, if_neg]
    rintro ⟨ha, hb, _⟩
    rcases h with h | h <;> omega
  rw [trainClassification, hv]

/-- Witness for C8: `setMTry` itself stores the out-of-range value 5 without
any check, and training on the 1-feature dataset then fails at entry. -/
theorem train_rejects_bad_mtry_witness :
    trainClassification (setMTry defaultTrainer 5) exDataC 7 =
      Except.error "invalid hyperparameters" :=
  train_rejects_bad_mtry (setMTry defaultTrainer 5) exDataC 7 (by decide)

/-- Counterexample to C9 as stated: at the tree count `2 ^ 53 + 1` the
`long`-to-`double` conversion rounds (ties to even) to `2 ^ 53`, so the
returned entry does not equal the tree count and feeding the vector back
stores the rounded count `2 ^ 53`, changing `m_B`. -/
theorem parameterVector_not_roundtrip_above_2_pow_53 :
    1 ≤ bigTrainer.m_B ∧
    (parameterVector bigTrainer).headD 0 ≠ (bigTrainer.m_B : ℚ) ∧
    setParameterVector bigTrainer (parameterVector bigTrainer) =
      Except.ok { bigTrainer with m_B := 9007199254740992 } ∧
    (9007199254740992 : Int) ≠ bigTrainer.m_B := by
  have hb : bigTrainer.m_B = 9007199254740993 := rfl
  have hd : (parameterVector bigTrainer).headD 0 = (9007199254740992 : ℚ) := by
    show longToDouble bigTrainer.m_B = (9007199254740992 : ℚ)
    rw [hb, longToDouble_big]
  refine ⟨by norm_num [hb], ?_, ?_, by norm_num [hb]⟩
  · rw [hd, hb]
    norm_num
  · rw [setParameterVector,
      if_pos (show (parameterVector bigTrainer).length = numberOfParameters bigTrainer from rfl)]
    have hcast : staticCastLong ((parameterVector bigTrainer).headD 0) = 9007199254740992 := by
      rw [hd, staticCastLong, if_pos (by norm_num)]
      rw [show (9007199254740992 : ℚ) = ((9007199254740992 : Int) : ℚ) by norm_num]
      exact Int.floor_intCast _
    rw [hcast, setNTrees, if_pos (by norm_num)]

/-- C9 (amended): for a trainer with tree count between 1 and `2 ^ 53` — the
range in which a 64-bit `long` converts to `double` exactly — `parameterVector`
is the one-element vector holding exactly the tree count, and feeding it back
through `setParameterVector` returns the trainer unchanged.  Above `2 ^ 53`
the conversion rounds and the round trip can change the count. -/
theorem parameterVector_roundtrip (t : RFTrainerState) (h : 1 ≤ t.m_B)
    (hrange : t.m_B ≤ 2 ^ 53) :
    (parameterVector t).length = 1 ∧
    (parameterVector t).headD 0 = (t.m_B : ℚ) ∧
    setParameterVector t (parameterVector t) = Except.ok t := by
  have hexact : longToDouble t.m_B = (t.m_B : ℚ) := longToDouble_exact (by omega) hrange
  refine ⟨rfl, hexact, ?_⟩
  rw [setParameterVector,
    if_pos (show (parameterVector t).length = numberOfParameters t from rfl)]
  have hcast : staticCastLong ((parameterVector t).headD 0) = t.m_B := by
    show staticCastLong (longToDouble t.m_B) = t.m_B
    rw [hexact, staticCastLong, if_pos (by exact_mod_cast Int.le_of_lt (by omega))]
    exact Int.floor_intCast _
  rw [hcast, setNTrees, if_pos h]

/-- Witness for C9 at the concrete default trainer (tree count 100). -/
theorem parameterVector_roundtrip_witness :
    (parameterVector defaultTrainer).length = 1 ∧
    (parameterVector defaultTrainer).headD 0 = ((defaultTrainer.m_B : ℚ)) ∧
    setParameterVector defaultTrainer (parameterVector defaultTrainer) =
      Except.ok defaultTrainer :=
  parameterVector_roundtrip defaultTrainer (by decide) (by norm_num [defaultTrainer])

/-- C10: applying `setParameterVector` to a one-element vector with entry at
least 1 succeeds and modifies only the number-of-trees field; every other
stored field — `mtry`, node size, OOB ratio, the three boolean toggles, the
impurity measure, and the remaining bookkeeping fields — is unchanged. -/
theorem setParameterVector_frame (t : RFTrainerState) (v : ℚ) (h : 1 ≤ v) :
    ∃ t', setParameterVector t [v] = Except.ok t' ∧
      t'.m_B = staticCastLong v ∧
      t'.m_try = t.m_try ∧ t'.m_nodeSize = t.m_nodeSize ∧ t'.m_OOBratio = t.m_OOBratio ∧
      t'.m_bootstrapWithReplacement = t.m_bootstrapWithReplacement ∧
      t'.m_computeFeatureImportances = t.m_computeFeatureImportances ∧
      t'.m_computeOOBerror = t.m_computeOOBerror ∧
      t'.m_computeCARTOOBerror = t.m_computeCARTOOBerror ∧
      t'.m_impurityMeasure = t.m_impurityMeasure ∧
      t'.m_inputDimension = t.m_inputDimension ∧
      t'.m_labelDimension = t.m_labelDimension ∧
      t'.m_labelCardinality = t.m_labelCardinality ∧
      t'.m_regressionLearner = t.m_regressionLearner := by
  refine ⟨{ t with m_B := staticCastLong v }, ?_, rfl, rfl, rfl, rfl, rfl, rfl, rfl,
    rfl, rfl, rfl, rfl, rfl, rfl⟩
  have hv : (1 : Int) ≤ staticCastLong v := by
    rw [staticCastLong, if_pos (le_trans zero_le_one h)]
    exact Int.le_floor.mpr (by exact_mod_cast h)
  rw [setParameterVector,
    if_pos (show ([v] : List ℚ).length = numberOfParameters t from rfl)]
  rw [show (([v] : List ℚ).headD 0) = v from rfl, setNTrees, if_pos hv]

/-- Witness for C10 at the default trainer and the vector entry 7/2. -/
theorem setParameterVector_frame_witness :
    ∃ t', setParameterVector defaultTrainer [7 / 2] = Except.ok t' ∧
      t'.m_B = staticCastLong (7 / 2) ∧
      t'.m_try = defaultTrainer.m_try ∧ t'.m_nodeSize = defaultTrainer.m_nodeSize ∧
      t'.m_OOBratio = defaultTrainer.m_OOBratio ∧
      t'.m_bootstrapWithReplacement = defaultTrainer.m_bootstrapWithReplacement ∧
      t'.m_computeFeatureImportances = defaultTrainer.m_computeFeatureImportances ∧
      t'.m_computeOOBerror = defaultTrainer.m_computeOOBerror ∧
      t'.m_computeCARTOOBerror = defaultTrainer.m_computeCARTOOBerror ∧
      t'.m_impurityMeasure = defaultTrainer.m_impurityMeasure ∧
      t'.m_inputDimension = defaultTrainer.m_inputDimension ∧
      t'.m_labelDimension = defaultTrainer.m_labelDimension ∧
      t'.m_labelCardinality = defaultTrainer.m_labelCardinality ∧
      t'.m_regressionLearner = defaultTrainer.m_regressionLearner :=
  setParameterVector_frame defaultTrainer (7 / 2) (by norm_num)

end Shark
